import Mathlib

/-!
Verification of the Term-Alignment and Annotation-Weaving engine of the
pali-vinaya-notes generator (`suttacentral.py`), shallowly embedded in Lean.

Python lists become `List`, tuples become products, dicts become ordered
association lists, exceptions become `Except`/`Option` results, and the
string-building render loops emit explicit item lists whose rendering
concatenates to the built string.
-/

/-- A term location: (line index, start word index, end word index), end inclusive.
Mirrors the `tuple[int, int, int]` used throughout `suttacentral.py`. -/
abbrev Loc := Nat × Nat × Nat

/-- Embedding of `do_locs_overlap` (suttacentral.py:310-317): two locations overlap
iff they are on the same line and, after ordering the two by start index, the
earlier one ends no earlier than the later one starts. -/
def do_locs_overlap (loc1 loc2 : Loc) : Bool :=
  if loc1.1 ≠ loc2.1 then
    false
  else
    let p := if loc1.2.1 > loc2.2.1 then (loc2, loc1) else (loc1, loc2)
    if p.1.2.2 < p.2.2.1 then false else true

theorem do_locs_overlap_comm (a b : Loc) (ha : a.2.1 ≤ a.2.2) (hb : b.2.1 ≤ b.2.2) :
    do_locs_overlap a b = do_locs_overlap b a := by
  obtain ⟨l1, s1, e1⟩ := a
  obtain ⟨l2, s2, e2⟩ := b
  simp only [do_locs_overlap] at *
  split_ifs <;> simp_all <;> omega

theorem do_locs_overlap_self (l s e : Nat) (h : s ≤ e) :
    do_locs_overlap (l, s, e) (l, s, e) = true := by
  simp only [do_locs_overlap]
  split_ifs <;> simp_all <;> omega

/-- Errors of the sequence matcher `find_sub_list` (suttacentral.py:72-81).
`invalidInput` models the `assert sll > 0 and end >= 0` failing (an
`AssertionError`, the malformed-call case); `notFound` models the
`ValueError` raised when the loop exhausts the search range, which names
the needle and the searched list in its message. -/
inductive FindError (α : Type) where
  | invalidInput : FindError α
  | notFound (needle haystack : List α) : FindError α
deriving DecidableEq

/-- The search loop of `find_sub_list`: `for i in range(start, end+1)`, returning
the first `i` whose first element and full slice both match the needle. -/
def find_sub_list_go {α : Type} [DecidableEq α] (sl l : List α) (stop i : Nat) : Option Nat :=
  if h : i ≤ stop then
    if l.get? i = sl.get? 0 ∧ (l.drop i).take sl.length = sl then some i
    else find_sub_list_go sl l stop (i + 1)
  else none
termination_by stop + 1 - i
decreasing_by omega

/-- Embedding of `find_sub_list(sl, l, start)` (suttacentral.py:72-81):
`end = len(l) - len(sl)`; asserts `len(sl) > 0 and end >= 0`, then scans
`range(start, end+1)` for the first index whose slice equals `sl`, raising
`ValueError` when no index matches. -/
def find_sub_list {α : Type} [DecidableEq α] (sl l : List α) (start : Nat) :
    Except (FindError α) Nat :=
  if 0 < sl.length ∧ sl.length ≤ l.length then
    match find_sub_list_go sl l (l.length - sl.length) start with
    | some i => Except.ok i
    | none => Except.error (FindError.notFound sl l)
  else Except.error FindError.invalidInput

theorem find_sub_list_go_none {α : Type} [DecidableEq α] (sl l : List α) (stop i : Nat)
    (h : ∀ j, i ≤ j → j ≤ stop → (l.drop j).take sl.length ≠ sl) :
    find_sub_list_go sl l stop i = none := by
  unfold find_sub_list_go
  split
  · next hle =>
    rw [if_neg, find_sub_list_go_none sl l stop (i + 1)]
    · intro j hj hj2
      exact h j (by omega) hj2
    · intro hc
      exact h i le_rfl hle hc.2
  · rfl
termination_by stop + 1 - i
decreasing_by omega

theorem find_sub_list_go_first {α : Type} [DecidableEq α] (sl l : List α) (stop i r : Nat)
    (hir : i ≤ r) (hr : r ≤ stop)
    (hc : l.get? r = sl.get? 0 ∧ (l.drop r).take sl.length = sl)
    (hmin : ∀ j, j < r → i ≤ j → (l.drop j).take sl.length ≠ sl) :
    find_sub_list_go sl l stop i = some r := by
  unfold find_sub_list_go
  rw [dif_pos (by omega)]
  rcases Nat.eq_or_lt_of_le hir with heq | hlt
  · subst heq
    rw [if_pos hc]
  · rw [if_neg, find_sub_list_go_first sl l stop (i + 1) r (by omega) hr hc]
    · intro j hj hj2
      exact hmin j hj (by omega)
    · intro hcc
      exact hmin i hlt le_rfl hcc.2
termination_by stop + 1 - i
decreasing_by omega

theorem slice_eq_head {α : Type} (sl l : List α) (i : Nat) (hne : sl ≠ [])
    (hm : (l.drop i).take sl.length = sl) : l.get? i = sl.get? 0 := by
  have hpos : 0 < sl.length := List.length_pos.mpr hne
  have h1 : ((l.drop i).take sl.length).get? 0 = sl.get? 0 := by rw [hm]
  rw [List.get?_take hpos, List.get?_drop, Nat.add_zero] at h1
  exact h1

theorem slice_eq_le {α : Type} (sl l : List α) (i : Nat) (hne : sl ≠ [])
    (hm : (l.drop i).take sl.length = sl) : i + sl.length ≤ l.length := by
  have hlen : ((l.drop i).take sl.length).length = sl.length := by rw [hm]
  rw [List.length_take, List.length_drop] at hlen
  have hpos : 0 < sl.length := List.length_pos.mpr hne
  omega

/-- C6: if the needle is non-empty and `i` is the smallest index at or after
`start` whose slice of the haystack equals the needle (elements compared by
their caller-supplied comparison keys, i.e. by the list elements themselves),
then `find_sub_list` succeeds and returns exactly `i`. -/
theorem find_sub_list_first_match {α : Type} [DecidableEq α] (sl l : List α) (start i : Nat)
    (hne : sl ≠ [])
    (hmatch : (l.drop i).take sl.length = sl)
    (hstart : start ≤ i)
    (hmin : ∀ j, j < i → start ≤ j → (l.drop j).take sl.length ≠ sl) :
    find_sub_list sl l start = Except.ok i := by
  have hpos : 0 < sl.length := List.length_pos.mpr hne
  have hle := slice_eq_le sl l i hne hmatch
  unfold find_sub_list
  rw [if_pos ⟨hpos, by omega⟩,
    find_sub_list_go_first sl l (l.length - sl.length) start i hstart (by omega)
      ⟨slice_eq_head sl l i hne hmatch, hmatch⟩ hmin]

/-- Witness for C6 at a concrete input: the needle `[2]` first occurs in
`[1, 2, 3, 2]` at index 1 when searching from 0. -/
theorem find_sub_list_first_match_witness :
    find_sub_list [2] ([1, 2, 3, 2] : List Nat) 0 = Except.ok 1 := by
  apply find_sub_list_first_match [2] ([1, 2, 3, 2] : List Nat) 0 1 (by decide) (by decide)
    (by decide)
  intro j hj _
  interval_cases j
  decide

/-- C4 (amended): `find_sub_list` fails with the invalid-input error exactly
when the needle is empty or longer than the haystack (the failed assertion),
and fails with the not-found error naming the needle and haystack when the
needle is non-empty, fits in the haystack, and no position at or after
`start` matches it. -/
theorem find_sub_list_failure {α : Type} [DecidableEq α] (sl l : List α) (start : Nat) :
    ((sl = [] ∨ l.length < sl.length) →
      find_sub_list sl l start = Except.error FindError.invalidInput)
    ∧ (sl ≠ [] → sl.length ≤ l.length →
      (∀ j, j < l.length → start ≤ j → (l.drop j).take sl.length ≠ sl) →
      find_sub_list sl l start = Except.error (FindError.notFound sl l)) := by
  constructor
  · intro h
    unfold find_sub_list
    rw [if_neg]
    intro ⟨h1, h2⟩
    rcases h with h | h
    · simp [h] at h1
    · omega
  · intro hne hfits hno
    have hpos : 0 < sl.length := List.length_pos.mpr hne
    unfold find_sub_list
    rw [if_pos ⟨hpos, hfits⟩, find_sub_list_go_none]
    intro j _ hj2 hc
    have := slice_eq_le sl l j hne hc
    exact hno j (by omega) (by omega) hc

/-- Witness for C4 at concrete inputs: an empty needle is the invalid-input
error, and a fitting needle with no occurrence is the not-found error. -/
theorem find_sub_list_failure_witness :
    find_sub_list ([] : List Nat) [1] 0 = Except.error FindError.invalidInput
    ∧ find_sub_list [5] ([1, 2] : List Nat) 0 = Except.error (FindError.notFound [5] [1, 2]) := by
  constructor
  · exact (find_sub_list_failure ([] : List Nat) [1] 0).1 (Or.inl rfl)
  · apply (find_sub_list_failure [5] ([1, 2] : List Nat) 0).2 (by decide) (by decide)
    intro j hj _
    have hj2 : j < 2 := by simpa using hj
    interval_cases j <;> decide

/-- C4 counterexample: a needle longer than the haystack hits the failed
assertion (the invalid-input error), not the not-found error the claim
predicts for that case. -/
theorem find_sub_list_long_needle_counterexample :
    find_sub_list [1, 2] ([1] : List Nat) 0 = Except.error FindError.invalidInput
    ∧ find_sub_list [1, 2] ([1] : List Nat) 0
        ≠ Except.error (FindError.notFound [1, 2] [1]) := by
  refine ⟨rfl, ?_⟩
  intro h
  rw [show find_sub_list [1, 2] ([1] : List Nat) 0 = Except.error FindError.invalidInput
    from rfl] at h
  injection h with h2
  exact FindError.noConfusion h2

/-- C9: for well-formed locations (an inclusive range runs from its start to
an end no smaller than it), `do_locs_overlap` returns true exactly when the
two locations share a line index and their inclusive index ranges intersect
in some common index `k`. -/
theorem do_locs_overlap_iff (l1 s1 e1 l2 s2 e2 : Nat) (h1 : s1 ≤ e1) (h2 : s2 ≤ e2) :
    do_locs_overlap (l1, s1, e1) (l2, s2, e2) = true
      ↔ l1 = l2 ∧ ∃ k, s1 ≤ k ∧ k ≤ e1 ∧ s2 ≤ k ∧ k ≤ e2 := by
  constructor
  · intro h
    simp only [do_locs_overlap] at h
    split_ifs at h with hl hs he he
    · refine ⟨by omega, max s1 s2, ?_, ?_, ?_, ?_⟩ <;> simp_all <;> omega
    · refine ⟨by omega, max s1 s2, ?_, ?_, ?_, ?_⟩ <;> simp_all <;> omega
  · intro ⟨hl, k, hk1, hk2, hk3, hk4⟩
    simp only [do_locs_overlap]
    split_ifs <;> simp_all <;> omega

/-- Witness for C9 at a concrete input: (0,0,1) and (0,1,2) overlap. -/
theorem do_locs_overlap_iff_witness : do_locs_overlap (0, 0, 1) (0, 1, 2) = true :=
  (do_locs_overlap_iff 0 0 1 0 1 2 (by decide) (by decide)).mpr
    ⟨rfl, 1, by omega, by omega, by omega, by omega⟩

/-- One step of the overlap-resolution loop of `render_word_definitions`
(suttacentral.py:371-374): keep the location unless the accumulator is
non-empty and the location overlaps the most recently kept one. -/
def unique_locs_step (acc : List Loc) (loc : Loc) : List Loc :=
  match acc.getLast? with
  | some last => if do_locs_overlap loc last then acc else acc ++ [loc]
  | none => acc ++ [loc]

/-- The overlap-resolution loop of `render_word_definitions`
(suttacentral.py:371-374). -/
def unique_locs (term_locations : List Loc) : List Loc :=
  term_locations.foldl unique_locs_step []

/-- Recursive reformulation of the resolution loop relative to the most
recently kept location, used for the proofs below. -/
def uniqueLocsFrom (last : Loc) : List Loc → List Loc
  | [] => []
  | t :: rest =>
      if do_locs_overlap t last then uniqueLocsFrom last rest
      else t :: uniqueLocsFrom t rest

theorem unique_locs_foldl_from (ts : List Loc) :
    ∀ (acc : List Loc) (last : Loc),
      List.foldl unique_locs_step (acc ++ [last]) ts
        = acc ++ last :: uniqueLocsFrom last ts := by
  induction ts with
  | nil => intro acc last; simp [uniqueLocsFrom]
  | cons t rest ih =>
    intro acc last
    simp only [List.foldl_cons, uniqueLocsFrom]
    rw [show unique_locs_step (acc ++ [last]) t
        = if do_locs_overlap t last then acc ++ [last] else (acc ++ [last]) ++ [t]
      from by simp [unique_locs_step, List.getLast?_concat]]
    split_ifs with h
    · exact ih acc last
    · rw [ih (acc ++ [last]) t]
      simp

theorem unique_locs_cons (t : Loc) (rest : List Loc) :
    unique_locs (t :: rest) = t :: uniqueLocsFrom t rest := by
  have h := unique_locs_foldl_from rest [] t
  simpa [unique_locs, unique_locs_step] using h

theorem uniqueLocsFrom_sublist (last : Loc) (ts : List Loc) :
    (uniqueLocsFrom last ts).Sublist ts := by
  induction ts generalizing last with
  | nil => simp [uniqueLocsFrom]
  | cons t rest ih =>
    simp only [uniqueLocsFrom]
    split_ifs with h
    · exact (ih last).cons t
    · exact (ih t).cons₂ t

/-- Ascending order on locations by (line, start), the order in which the
aligner produces them. -/
def locLe (a b : Loc) : Prop := a.1 < b.1 ∨ (a.1 = b.1 ∧ a.2.1 ≤ b.2.1)

instance locLe_decidable (a b : Loc) : Decidable (locLe a b) := by
  unfold locLe
  infer_instance

theorem overlap_chain (a b c : Loc) (hab : locLe a b) (hbc : locLe b c)
    (h : do_locs_overlap a b = false) : do_locs_overlap a c = false := by
  obtain ⟨l1, s1, e1⟩ := a
  obtain ⟨l2, s2, e2⟩ := b
  obtain ⟨l3, s3, e3⟩ := c
  simp only [do_locs_overlap, locLe] at *
  split_ifs at h ⊢ <;> simp_all <;> omega

theorem uniqueLocsFrom_pairwise (ts : List Loc) :
    ∀ last : Loc, last.2.1 ≤ last.2.2 → (∀ x ∈ ts, x.2.1 ≤ x.2.2) →
      (last :: ts).Pairwise locLe →
      (last :: uniqueLocsFrom last ts).Pairwise (fun a b => do_locs_overlap a b = false) := by
  induction ts with
  | nil => intro last _ _ _; simp [uniqueLocsFrom]
  | cons t rest ih =>
    intro last hwl hwts hsort
    rw [List.pairwise_cons] at hsort
    obtain ⟨hle, hrest⟩ := hsort
    have hwt : t.2.1 ≤ t.2.2 := hwts t (List.mem_cons_self t rest)
    have hwrest : ∀ x ∈ rest, x.2.1 ≤ x.2.2 :=
      fun x hx => hwts x (List.mem_cons_of_mem t hx)
    simp only [uniqueLocsFrom]
    split_ifs with h
    · apply ih last hwl hwrest
      rw [List.pairwise_cons]
      exact ⟨fun b hb => hle b (List.mem_cons_of_mem t hb),
        (List.pairwise_cons.mp hrest).2⟩
    · rw [Bool.not_eq_true] at h
      have hlast_t : do_locs_overlap last t = false := by
        rw [do_locs_overlap_comm last t hwl hwt]
        exact h
      rw [List.pairwise_cons]
      refine ⟨?_, ih t hwt hwrest hrest⟩
      intro b hb
      rcases List.mem_cons.mp hb with rfl | hb2
      · exact hlast_t
      · have hbr : b ∈ rest := (uniqueLocsFrom_sublist t rest).subset hb2
        exact overlap_chain last t b (hle t (List.mem_cons_self t rest))
          ((List.pairwise_cons.mp hrest).1 b hbr) hlast_t

/-- C5 (amended): when the located phrases are well-formed and arrive sorted
ascending by (line, start) — as the cursor-advancing aligner produces them —
the surviving unique locations are a subsequence of the input (hence in the
same relative order as their source phrases), remain sorted ascending by
(line, start), and are pairwise non-overlapping. -/
theorem unique_locs_sorted_disjoint (ts : List Loc)
    (hwf : ∀ x ∈ ts, x.2.1 ≤ x.2.2)
    (hsort : ts.Pairwise locLe) :
    (unique_locs ts).Sublist ts
    ∧ (unique_locs ts).Pairwise locLe
    ∧ (unique_locs ts).Pairwise (fun a b => do_locs_overlap a b = false) := by
  cases ts with
  | nil => refine ⟨?_, ?_, ?_⟩ <;> simp [unique_locs]
  | cons t rest =>
    rw [unique_locs_cons]
    have hsub : (t :: uniqueLocsFrom t rest).Sublist (t :: rest) :=
      (uniqueLocsFrom_sublist t rest).cons₂ t
    refine ⟨hsub, hsort.sublist hsub, ?_⟩
    exact uniqueLocsFrom_pairwise rest t (hwf t (List.mem_cons_self t rest))
      (fun x hx => hwf x (List.mem_cons_of_mem t hx)) hsort

/-- Witness for C5 at a concrete input: with the sorted list
[(0,0,1), (0,1,2), (0,3,4)] the surviving locations are pairwise
non-overlapping. -/
theorem unique_locs_sorted_disjoint_witness :
    (unique_locs [(0, 0, 1), (0, 1, 2), (0, 3, 4)]).Pairwise
      (fun a b => do_locs_overlap a b = false) :=
  (unique_locs_sorted_disjoint [(0, 0, 1), (0, 1, 2), (0, 3, 4)]
    (by decide) (by decide)).2.2

/-- C5 counterexample: on the (unsorted) input [(0,5,9), (0,0,3)] the loop
keeps both locations in input order, so the surviving unique locations are
not sorted ascending by (line, start). -/
theorem unique_locs_unsorted_counterexample :
    ¬ (unique_locs [(0, 5, 9), (0, 0, 3)]).Pairwise locLe := by
  decide

/-- The grouping comprehension of `render_word_definitions`
(suttacentral.py:375-378): each surviving unique location is paired with the
indices of every definition whose location overlaps it. -/
def grouped_definitions (term_locations : List Loc) : List (Loc × List Nat) :=
  (unique_locs term_locations).map
    (fun loc =>
      (loc, (term_locations.enum.filter (fun p => do_locs_overlap loc p.2)).map
        (fun p => p.1)))

theorem uniqueLocsFrom_covers (ts : List Loc) :
    ∀ last : Loc, (∀ x ∈ ts, x.2.1 ≤ x.2.2) →
      ∀ t ∈ ts, ∃ u ∈ last :: uniqueLocsFrom last ts, do_locs_overlap t u = true := by
  induction ts with
  | nil => intro last _ t ht; simp at ht
  | cons t0 rest ih =>
    intro last hwts t ht
    have hwrest : ∀ x ∈ rest, x.2.1 ≤ x.2.2 :=
      fun x hx => hwts x (List.mem_cons_of_mem t0 hx)
    simp only [uniqueLocsFrom]
    split_ifs with h
    · rcases List.mem_cons.mp ht with rfl | ht2
      · exact ⟨last, List.mem_cons_self last _, h⟩
      · exact ih last hwrest t ht2
    · rcases List.mem_cons.mp ht with rfl | ht2
      · refine ⟨t, List.mem_cons_of_mem last (List.mem_cons_self t _), ?_⟩
        obtain ⟨l, s, e⟩ := t
        exact do_locs_overlap_self l s e (hwts (l, s, e) (List.mem_cons_self _ rest))
      · obtain ⟨u, hu, hov⟩ := ih t0 hwrest t ht2
        exact ⟨u, List.mem_cons_of_mem last hu, hov⟩

theorem unique_locs_covers (ts : List Loc) (hwf : ∀ x ∈ ts, x.2.1 ≤ x.2.2) :
    ∀ t ∈ ts, ∃ u ∈ unique_locs ts, do_locs_overlap u t = true := by
  intro t ht
  cases ts with
  | nil => simp at ht
  | cons t0 rest =>
    rw [unique_locs_cons]
    rcases List.mem_cons.mp ht with rfl | ht2
    · refine ⟨t, List.mem_cons_self t _, ?_⟩
      obtain ⟨l, s, e⟩ := t
      exact do_locs_overlap_self l s e (hwf (l, s, e) (List.mem_cons_self _ rest))
    · obtain ⟨u, hu, hov⟩ := uniqueLocsFrom_covers rest t0
        (fun x hx => hwf x (List.mem_cons_of_mem t0 hx)) t ht2
      refine ⟨u, hu, ?_⟩
      have hwu : u.2.1 ≤ u.2.2 := by
        rcases List.mem_cons.mp hu with rfl | hu2
        · exact hwf u (List.mem_cons_self u rest)
        · exact hwf u (List.mem_cons_of_mem t0 ((uniqueLocsFrom_sublist t0 rest).subset hu2))
      rw [do_locs_overlap_comm u t hwu (hwf t ht)]
      exact hov

/-- C2 (amended): for well-formed located phrases, overlap resolution is
total — every phrase index is assigned to at least one grouping entry — but
it need not be a partition: a phrase whose location overlaps two different
surviving unique locations appears in both of their entries. -/
theorem grouped_definitions_total (ts : List Loc) (hwf : ∀ x ∈ ts, x.2.1 ≤ x.2.2)
    (i : Nat) (hi : i < ts.length) :
    ∃ g ∈ grouped_definitions ts, i ∈ g.2 := by
  have ht : ts.get ⟨i, hi⟩ ∈ ts := ts.get_mem i hi
  obtain ⟨u, hu, hov⟩ := unique_locs_covers ts hwf _ ht
  refine ⟨(u, (ts.enum.filter (fun p => do_locs_overlap u p.2)).map (fun p => p.1)),
    List.mem_map_of_mem _ hu, ?_⟩
  apply List.mem_map.mpr
  refine ⟨(i, ts.get ⟨i, hi⟩), ?_, rfl⟩
  apply List.mem_filter.mpr
  refine ⟨?_, by simpa using hov⟩
  rw [List.mem_enum_iff_get?]
  exact List.get?_eq_get hi

/-- Witness for C2 at a concrete input: on [(0,0,5), (0,3,8), (0,7,9)] some
grouping entry contains phrase index 1. -/
theorem grouped_definitions_total_witness :
    (grouped_definitions [(0, 0, 5), (0, 3, 8), (0, 7, 9)]).any
      (fun g => decide (1 ∈ g.2)) = true := by
  obtain ⟨g, hg, hmem⟩ :=
    grouped_definitions_total [(0, 0, 5), (0, 3, 8), (0, 7, 9)] (by decide) 1 (by decide)
  exact List.any_eq_true.mpr ⟨g, hg, by simpa using hmem⟩

/-- C2 counterexample: with the well-formed located phrases
[(0,0,5), (0,3,8), (0,7,9)] — a chain of overlaps — the phrase at index 1 is
grouped under both surviving unique locations (0,0,5) and (0,7,9), so the
grouping is not a partition of the phrase list. -/
theorem grouped_definitions_not_partition :
    (grouped_definitions [(0, 0, 5), (0, 3, 8), (0, 7, 9)]).countP
      (fun g => decide (1 ∈ g.2)) = 2 := by
  decide

/-- Ordered-dictionary lookup, modelling a Python dict's `in` and `[]`. -/
def alistGet {K V : Type} [DecidableEq K] : List (K × V) → K → Option V
  | [], _ => none
  | (k2, v2) :: rest, k => if k2 = k then some v2 else alistGet rest k

/-- Ordered-dictionary assignment, modelling `d[k] = v` on a Python dict:
replaces in place when the key is present, otherwise appends, preserving
insertion order. -/
def alistSet {K V : Type} [DecidableEq K] : List (K × V) → K → V → List (K × V)
  | [], k, v => [(k, v)]
  | (k2, v2) :: rest, k, v =>
      if k2 = k then (k, v) :: rest else (k2, v2) :: alistSet rest k v

/-- The normalized phrase string rendered for a location
(suttacentral.py:384-385): the sanitized words of
`root_text[loc[0]][loc[1]:loc[2]+1]` joined by single spaces. `san` stands in
for the collaborator `sanitize(w, lower=True)`. -/
def phrase_at (root_text : List (List String)) (san : String → String) (loc : Loc) : String :=
  " ".intercalate
    ((((root_text.getD loc.1 []).drop loc.2.1).take (loc.2.2 + 1 - loc.2.1)).map san)

/-- State of the phrase-numbering loop: the `root_phrases` ordered dict from
location to display label and the `seen_phrases` ordered dict of occurrence
counters. -/
structure DisState where
  root_phrases : List (Loc × String)
  seen_phrases : List (String × Nat)
deriving DecidableEq

/-- One iteration of the numbering loop of `render_word_definitions`
(suttacentral.py:383-395). `none` models the uncaught `IndexError` raised by
`[l for l in root_phrases.keys() if root_phrases[l] == root_phrase][0]` when
no key of `root_phrases` still maps to the bare phrase. Note that, exactly as
in the source, the counter update `seen_phrases[root_phrase] = n + 1` runs
after `root_phrase` has been rebound to the suffixed label. -/
def disambiguate_step (root_text : List (List String)) (san : String → String)
    (st : DisState) (loc : Loc) : Option DisState :=
  let root_phrase := phrase_at root_text san loc
  match alistGet st.seen_phrases root_phrase with
  | some n =>
      let relabeled :=
        if n = 2 then
          match (st.root_phrases.filter (fun p => p.2 == root_phrase)).head? with
          | some first => some (alistSet st.root_phrases first.1 (root_phrase ++ " (1)"))
          | none => none
        else some st.root_phrases
      match relabeled with
      | none => none
      | some rps =>
          let root_phrase2 := root_phrase ++ " (" ++ toString n ++ ")"
          some ⟨alistSet rps loc root_phrase2,
            alistSet st.seen_phrases root_phrase2 (n + 1)⟩
  | none =>
      some ⟨alistSet st.root_phrases loc root_phrase,
        alistSet st.seen_phrases root_phrase 2⟩

/-- The numbering loop of `render_word_definitions` (suttacentral.py:381-395)
over the surviving unique locations, starting from empty dicts. -/
def disambiguate (root_text : List (List String)) (san : String → String)
    (locs : List Loc) : Option DisState :=
  locs.foldlM (disambiguate_step root_text san) ⟨[], []⟩

/-- C1 / code bug: three occurrences of the same normalized phrase crash the
numbering loop instead of yielding "a (1)", "a (2)", "a (3)". With three
unique locations over the root text line ["a", "a", "a"], the loop fails
(returns `none`, the source's uncaught `IndexError`) at the third occurrence:
the counter was stored under the suffixed key "a (2)" instead of "a", so the
third occurrence re-enters the relabel branch and finds no entry still
labeled bare "a". -/
theorem disambiguate_crashes_on_third_occurrence :
    disambiguate [["a", "a", "a"]] id [(0, 0, 0), (0, 1, 1), (0, 2, 2)] = none := by
  rfl

/-- For exactly two occurrences the loop matches its documentation: the first
occurrence is retroactively relabeled "a (1)" and the second labeled "a (2)". -/
theorem disambiguate_two_occurrences :
    disambiguate [["a", "x", "a"]] id [(0, 0, 0), (0, 2, 2)]
      = some ⟨[((0, 0, 0), "a (1)"), ((0, 2, 2), "a (2)")], [("a", 2), ("a (2)", 3)]⟩ := by
  rfl

/-- A lone occurrence keeps its bare label. -/
theorem disambiguate_single_occurrence :
    disambiguate [["a", "x"]] id [(0, 0, 0)]
      = some ⟨[((0, 0, 0), "a")], [("a", 2)]⟩ := by
  rfl

/-- A path to a markdown file, abstracted to the stem (filename without final
extension) that `write_md_file` inspects. -/
structure MDPath where
  stem : String
deriving DecidableEq

/-- The process-wide registries touched by `write_md_file`: the
`PREVIOUSLY_WRITTEN_FILES` set of lowercased stems, the files written so far,
and the `SCUID_SEGMENT_PATHS` registry of (start scuid, end scuid, path)
records. -/
structure WriteState where
  previously_written : List String
  files : List (MDPath × String)
  segment_paths : List (String × Option String × MDPath)
deriving DecidableEq

/-- Python `str.lower()` on one character: the Unicode lowercase mapping
over the blocks this program's filenames draw on — ASCII, the Latin-1
Supplement, Latin Extended-A and Latin Extended Additional — which cover the
Pali romanization alphabet (Ā, Ī, Ū, Ñ, Ṅ, Ṭ, Ḍ, Ṇ, Ḷ, Ṁ, Ṃ, Ś, Ṣ, …)
alongside A-Z. Code points of these blocks with no single-character
lowercase (ß, ĸ, ŉ, İ — whose Python lowercase is the two-character i̇ —
and the lowercase-only 1E96-1E9F span) are left unchanged, as are all
characters outside these blocks (digits, punctuation, spaces). -/
def py_lower_char (c : Char) : Char :=
  let n := c.toNat
  if 0x41 ≤ n ∧ n ≤ 0x5A then Char.ofNat (n + 32)
  else if 0xC0 ≤ n ∧ n ≤ 0xDE ∧ n ≠ 0xD7 then Char.ofNat (n + 32)
  else if 0x100 ≤ n ∧ n ≤ 0x137 ∧ n % 2 = 0 ∧ n ≠ 0x130 then Char.ofNat (n + 1)
  else if 0x139 ≤ n ∧ n ≤ 0x148 ∧ n % 2 = 1 then Char.ofNat (n + 1)
  else if 0x14A ≤ n ∧ n ≤ 0x177 ∧ n % 2 = 0 then Char.ofNat (n + 1)
  else if n = 0x178 then Char.ofNat 0xFF
  else if 0x179 ≤ n ∧ n ≤ 0x17E ∧ n % 2 = 1 then Char.ofNat (n + 1)
  else if 0x1E00 ≤ n ∧ n ≤ 0x1E95 ∧ n % 2 = 0 then Char.ofNat (n + 1)
  else if 0x1EA0 ≤ n ∧ n ≤ 0x1EFF ∧ n % 2 = 0 then Char.ofNat (n + 1)
  else c

/-- Python `str.lower()` on the stems, applied character-wise. -/
def str_lower (x : String) : String := String.mk (x.data.map py_lower_char)

/-- The folding covers the Pali romanization alphabet, not just ASCII. -/
theorem str_lower_pali : str_lower "ĀĪŪṄÑṬḌṆḶṀṂŚṢ" = "āīūṅñṭḍṇḷṁṃśṣ" := by
  decide

/-- The document text assembled by `write_md_file` (suttacentral.py:327-346):
front matter listing the aliases, the content, and the fixed footer. -/
def md_file_text (start_scuid : String) (end_scuid : Option String)
    (content : String) : String :=
  let aliases :=
    match end_scuid with
    | some e => if e ≠ "" ∧ e ≠ start_scuid then start_scuid ++ "\n  - " ++ e else start_scuid
    | none => start_scuid
  "---\naliases:\n  - " ++ aliases ++ "\n---\n" ++ content
    ++ "\n\n---\n\nDO NOT MODIFY.\nTo add your thoughts, create a new note and link to this one.\nFound a problem? [Open an issue on GitHub](https://github.com/obu-labs/pali-vinaya-notes/issues/new).\n"

/-- Embedding of `write_md_file` (suttacentral.py:325-347). The `Option
String` component is the raised collision message (`raise Exception`); the
raise happens before any mutation, so on collision the returned state is the
input state. Otherwise the lowercased stem is recorded, the file written, and
the segment registry extended, in that order. -/
def write_md_file (st : WriteState) (rule_file : MDPath) (start_scuid : String)
    (end_scuid : Option String) (content : String) : WriteState × Option String :=
  let fname := str_lower rule_file.stem
  if fname ∈ st.previously_written then
    (st, some ("ERROR: We already wrote a file named " ++ fname))
  else
    ({ previously_written := st.previously_written ++ [fname],
       files := st.files ++ [(rule_file, md_file_text start_scuid end_scuid content)],
       segment_paths := st.segment_paths ++ [(start_scuid, end_scuid, rule_file)] },
     none)

theorem write_md_file_err (st : WriteState) (f : MDPath) (s : String)
    (e : Option String) (c : String) (h : str_lower f.stem ∈ st.previously_written) :
    write_md_file st f s e c
      = (st, some ("ERROR: We already wrote a file named " ++ str_lower f.stem)) := by
  simp only [write_md_file]
  rw [if_pos h]

theorem write_md_file_ok (st : WriteState) (f : MDPath) (s : String)
    (e : Option String) (c : String) (h : str_lower f.stem ∉ st.previously_written) :
    write_md_file st f s e c
      = ({ previously_written := st.previously_written ++ [str_lower f.stem],
           files := st.files ++ [(f, md_file_text s e c)],
           segment_paths := st.segment_paths ++ [(s, e, f)] }, none) := by
  simp only [write_md_file]
  rw [if_neg h]

/-- C10: `write_md_file` raises exactly when the lowercased stem of the
target is already among the stems written so far (so two names differing
only in letter case collide), the raise happens before any write (the state,
including the written-file list and the segment registry, is unchanged), and
a successful call records the lowercased stem, writes the file, and appends
to the segment registry. -/
theorem write_md_file_collision_atomic (st : WriteState) (f : MDPath)
    (s : String) (e : Option String) (c : String) :
    ((write_md_file st f s e c).2 ≠ none ↔ str_lower f.stem ∈ st.previously_written)
    ∧ ((write_md_file st f s e c).2 ≠ none → (write_md_file st f s e c).1 = st)
    ∧ ((write_md_file st f s e c).2 = none →
        (write_md_file st f s e c).1.previously_written
            = st.previously_written ++ [str_lower f.stem]
          ∧ (write_md_file st f s e c).1.files
            = st.files ++ [(f, md_file_text s e c)]
          ∧ (write_md_file st f s e c).1.segment_paths
            = st.segment_paths ++ [(s, e, f)])
    ∧ (∀ f2 : MDPath, str_lower f2.stem = str_lower f.stem →
        (write_md_file st f s e c).2 = none →
        (write_md_file (write_md_file st f s e c).1 f2 s e c).2 ≠ none) := by
  by_cases h : str_lower f.stem ∈ st.previously_written
  · rw [write_md_file_err st f s e c h]
    refine ⟨⟨fun _ => h, fun _ => by simp⟩, fun _ => rfl, fun hc => by simp at hc, ?_⟩
    intro f2 _ hc
    simp at hc
  · rw [write_md_file_ok st f s e c h]
    refine ⟨⟨fun hc => absurd rfl hc, fun hm => absurd hm h⟩, ?_, ?_, ?_⟩
    · intro hc
      exact absurd rfl hc
    · intro _
      exact ⟨rfl, rfl, rfl⟩
    · intro f2 hf2 _
      rw [write_md_file_err _ f2 s e c (by simp [hf2])]
      simp

/-- Witness for C10 at a concrete input: after writing a file whose stem is
the Pali name "Ānāpāna Ṭhāna", writing one with the stem "ĀNĀPĀNA ṬHĀNA" —
differing only in (non-ASCII) letter case — collides. -/
theorem write_md_file_collision_atomic_witness :
    (write_md_file (write_md_file ⟨[], [], []⟩ ⟨"Ānāpāna Ṭhāna"⟩ "s" none "c").1
      ⟨"ĀNĀPĀNA ṬHĀNA"⟩ "s" none "c").2 ≠ none := by
  apply (write_md_file_collision_atomic ⟨[], [], []⟩ ⟨"Ānāpāna Ṭhāna"⟩ "s" none "c").2.2.2
    ⟨"ĀNĀPĀNA ṬHĀNA"⟩
  · decide
  · rfl

/-- Output items emitted by the root-text weaving loop of `render_rule`
(suttacentral.py:823-866), one per string appended to `rendered_root`, in
append order. Rendering each item and concatenating reproduces the built
string; keeping them as items lets the theorems speak about marker and link
placement. -/
inductive WItem where
  | lineStart : WItem
  | linkOpen : WItem
  | token (w : String) : WItem
  | linkClose (dest : String) : WItem
  | fnStandard (n : Nat) : WItem
  | fnSuper (n : Nat) : WItem
  | space : WItem
  | text (s : String) : WItem
deriving DecidableEq

/-- Rendering of one item to the exact string the source appends.
`closeText` stands in for `abs_path_to_obsidian_link_text(dest, PM_FOLDER)`
and `sup` for `superscript_number`, both collaborators outside the engine. -/
def renderWItem (closeText : String → String) (sup : Nat → String) : WItem → String
  | .lineStart => "\n> "
  | .linkOpen => "["
  | .token w => w
  | .linkClose dest => closeText dest
  | .fnStandard n => "[^" ++ toString n ++ "]"
  | .fnSuper n => sup n
  | .space => " "
  | .text s => s

/-- State threaded through the weaving loop: the index `k` into `word_defs`
and the accumulated `footnotes` list. -/
structure WeaveState where
  k : Nat
  footnotes : List String
deriving DecidableEq

/-- The `_get_def(k)` helper of `render_rule` (suttacentral.py:827-832):
the current definition (if any), whether it is in scope on line `i`, and the
link start and end indices when in scope. -/
def get_def (word_defs : List (Loc × String)) (i k : Nat) :
    Option (Loc × String) × Bool × Option Nat × Option Nat :=
  match word_defs.get? k with
  | some d =>
      if d.1.1 = i then (some d, true, some d.1.2.1, some d.1.2.2)
      else (some d, false, none, none)
  | none => (none, false, none, none)

/-- The body of the inner word loop of `render_rule` (suttacentral.py:837-864)
for word `w` at index `j` of line `i`: the link-open bracket when `j` starts
the current span, the word itself, the variant footnote text appended to the
state, the link close (and `k` advance) at the span end with any variant
marker strictly after it, otherwise a superscript marker inside the span and
a standard marker outside, and the separating space. -/
def weave_word (word_defs : List (Loc × String)) (vm : Nat → Option (String × String))
    (i lineLen : Nat) (st : WeaveState) (j : Nat) (w : String) : WeaveState × List WItem :=
  let gd := get_def word_defs i st.k
  let startItems : List WItem := if gd.2.2.1 = some j then [WItem.linkOpen] else []
  let fns : List String :=
    match vm j with
    | some v => st.footnotes ++ [v.1 ++ " → " ++ v.2]
    | none => st.footnotes
  if gd.2.2.2 = some j then
    let dest : String :=
      match gd.1 with
      | some d => d.2
      | none => ""
    let fnItems : List WItem := if (vm j).isSome then [WItem.fnStandard fns.length] else []
    (⟨st.k + 1, fns⟩,
      startItems ++ [WItem.token w, WItem.linkClose dest] ++ fnItems
        ++ (if j < lineLen - 1 then [WItem.space] else []))
  else
    let fnItems : List WItem :=
      if (vm j).isSome then
        let overlaps_link : Bool :=
          match gd.2.2.1, gd.2.2.2 with
          | some s, some e => decide (s ≤ j ∧ j < e)
          | _, _ => false
        if overlaps_link then [WItem.fnSuper fns.length] else [WItem.fnStandard fns.length]
      else []
    (⟨st.k, fns⟩,
      startItems ++ [WItem.token w] ++ fnItems
        ++ (if j < lineLen - 1 then [WItem.space] else []))

/-- The inner `for j, word in enumerate(line)` loop from position `j` on. -/
def weave_words (word_defs : List (Loc × String)) (vm : Nat → Option (String × String))
    (i lineLen : Nat) : WeaveState → Nat → List String → WeaveState × List WItem
  | st, _, [] => (st, [])
  | st, j, w :: ws =>
      let r1 := weave_word word_defs vm i lineLen st j w
      let r2 := weave_words word_defs vm i lineLen r1.1 (j + 1) ws
      (r2.1, r1.2 ++ r2.2)

/-- One line of the outer loop (suttacentral.py:826-864): the `"\n> "` quote
marker, then the word loop over the whole line. -/
def weave_line (word_defs : List (Loc × String)) (vm : Nat → Option (String × String))
    (i : Nat) (st : WeaveState) (line : List String) : WeaveState × List WItem :=
  let r := weave_words word_defs vm i line.length st 0 line
  (r.1, WItem.lineStart :: r.2)

/-- The outer `for i, line in enumerate(root_text)` loop from line `i` on. -/
def weave_lines (word_defs : List (Loc × String))
    (vms : Nat → Nat → Option (String × String)) :
    Nat → WeaveState → List (List String) → WeaveState × List WItem
  | _, st, [] => (st, [])
  | i, st, line :: rest =>
      let r1 := weave_line word_defs (vms i) i st line
      let r2 := weave_lines word_defs vms (i + 1) r1.1 rest
      (r2.1, r1.2 ++ r2.2)

/-- The whole root-text weave of `render_rule` (suttacentral.py:823-866),
starting with `k = 0` and `footnotes = []`. `vms i j` is the variant map of
line `i` at word index `j` (the result of `build_variant_map`). -/
def weave_doc (word_defs : List (Loc × String))
    (vms : Nat → Nat → Option (String × String))
    (root_text : List (List String)) : WeaveState × List WItem :=
  weave_lines word_defs vms 0 ⟨0, []⟩ root_text

/-- The translation/comment loop of `render_rule` (suttacentral.py:869-874),
continuing with the footnotes accumulated by the weave: per key, emit the
translation text and, when a comment exists, append it to the footnotes and
emit the next standard marker. -/
def comment_pass : List String → List (String × Option String) → List String × List WItem
  | fns, [] => (fns, [])
  | fns, (tr, comment) :: rest =>
      let r1 : List String × List WItem :=
        match comment with
        | some cm =>
            (fns ++ [cm], [WItem.text tr, WItem.fnStandard (fns.length + 1), WItem.text "\n"])
        | none => (fns, [WItem.text tr, WItem.text "\n"])
      let r2 := comment_pass r1.1 rest
      (r2.1, r1.2 ++ r2.2)

/-- Projection of the woven items to the root-text tokens they carry. -/
def witemToken : WItem → Option String
  | .token w => some w
  | _ => none

/-- The tokens of the woven output, in order, with every inserted link and
footnote marker removed. -/
def tokensOf (items : List WItem) : List String := items.filterMap witemToken

/-- Projection of the woven items to the footnote marker numbers they carry,
regardless of marker style (standard or superscript-inline). -/
def witemMarker : WItem → Option Nat
  | .fnStandard n => some n
  | .fnSuper n => some n
  | _ => none

/-- The footnote marker numbers of the output, in emission order. -/
def markerNums (items : List WItem) : List Nat := items.filterMap witemMarker

/-- The string `render_rule` accumulates in `rendered_root`. -/
def weave_render (closeText : String → String) (sup : Nat → String)
    (word_defs : List (Loc × String)) (vms : Nat → Nat → Option (String × String))
    (root_text : List (List String)) : String :=
  String.join (((weave_doc word_defs vms root_text).2).map (renderWItem closeText sup))

theorem weave_word_tokens (word_defs : List (Loc × String))
    (vm : Nat → Option (String × String)) (i lineLen : Nat) (st : WeaveState)
    (j : Nat) (w : String) :
    tokensOf (weave_word word_defs vm i lineLen st j w).2 = [w] := by
  unfold weave_word
  rcases h : vm j with _ | v <;> simp only [h] <;> split_ifs <;>
    simp [tokensOf, witemToken, List.filterMap_append]

theorem weave_words_tokens (word_defs : List (Loc × String))
    (vm : Nat → Option (String × String)) (i lineLen : Nat) :
    ∀ (ws : List String) (st : WeaveState) (j : Nat),
      tokensOf (weave_words word_defs vm i lineLen st j ws).2 = ws := by
  intro ws
  induction ws with
  | nil => intro st j; simp [weave_words, tokensOf]
  | cons w ws ih =>
    intro st j
    simp only [weave_words, tokensOf, List.filterMap_append]
    rw [show List.filterMap witemToken (weave_word word_defs vm i lineLen st j w).2 = [w]
      from weave_word_tokens word_defs vm i lineLen st j w]
    rw [show List.filterMap witemToken
        (weave_words word_defs vm i lineLen
          (weave_word word_defs vm i lineLen st j w).1 (j + 1) ws).2 = ws
      from ih _ _]
    rfl

theorem weave_lines_tokens (word_defs : List (Loc × String))
    (vms : Nat → Nat → Option (String × String)) :
    ∀ (lines : List (List String)) (i : Nat) (st : WeaveState),
      tokensOf (weave_lines word_defs vms i st lines).2 = lines.join := by
  intro lines
  induction lines with
  | nil => intro i st; simp [weave_lines, tokensOf]
  | cons line rest ih =>
    intro i st
    simp only [weave_lines, weave_line, List.join, tokensOf, List.filterMap_append,
      List.filterMap_cons]
    rw [show List.filterMap witemToken
        (weave_words word_defs (vms i) i line.length st 0 line).2 = line
      from weave_words_tokens word_defs (vms i) i line.length line st 0]
    rw [show List.filterMap witemToken
        (weave_lines word_defs vms (i + 1)
          (weave_words word_defs (vms i) i line.length st 0 line).1 rest).2 = rest.join
      from ih _ _]
    simp [witemToken]

/-- C8: removing every inserted marker from the weaver's output leaves
exactly the original root text's printed tokens in their original order, so
re-joining them with single spaces reproduces the space-joined original
tokens, for every root text, word-definition list, and variant map. -/
theorem weave_round_trip (word_defs : List (Loc × String))
    (vms : Nat → Nat → Option (String × String)) (root_text : List (List String)) :
    tokensOf (weave_doc word_defs vms root_text).2 = root_text.join
    ∧ " ".intercalate (tokensOf (weave_doc word_defs vms root_text).2)
        = " ".intercalate root_text.join := by
  have h : tokensOf (weave_doc word_defs vms root_text).2 = root_text.join :=
    weave_lines_tokens word_defs vms root_text 0 ⟨0, []⟩
  exact ⟨h, by rw [h]⟩

theorem range1_append (a m n : Nat) :
    List.range' a m ++ List.range' (a + m) n = List.range' a (m + n) := by
  have h := List.range'_append a m n 1
  rw [Nat.add_comm m n]
  simpa using h

theorem weave_word_markers_none (word_defs : List (Loc × String))
    (vm : Nat → Option (String × String)) (i lineLen : Nat) (st : WeaveState)
    (j : Nat) (w : String) (h : vm j = none) :
    (weave_word word_defs vm i lineLen st j w).1.footnotes = st.footnotes
    ∧ markerNums (weave_word word_defs vm i lineLen st j w).2 = [] := by
  unfold weave_word
  simp only [h]
  split_ifs <;> simp_all [markerNums, witemMarker, List.filterMap_append]

theorem weave_word_markers_some (word_defs : List (Loc × String))
    (vm : Nat → Option (String × String)) (i lineLen : Nat) (st : WeaveState)
    (j : Nat) (w : String) (v : String × String) (h : vm j = some v) :
    (weave_word word_defs vm i lineLen st j w).1.footnotes
        = st.footnotes ++ [v.1 ++ " → " ++ v.2]
    ∧ markerNums (weave_word word_defs vm i lineLen st j w).2
        = [st.footnotes.length + 1] := by
  unfold weave_word
  simp only [h]
  split_ifs <;> simp_all [markerNums, witemMarker, List.filterMap_append]

theorem weave_words_markers (word_defs : List (Loc × String))
    (vm : Nat → Option (String × String)) (i lineLen : Nat) :
    ∀ (ws : List String) (st : WeaveState) (j : Nat),
      ∃ δ : List String,
        (weave_words word_defs vm i lineLen st j ws).1.footnotes = st.footnotes ++ δ
        ∧ markerNums (weave_words word_defs vm i lineLen st j ws).2
            = List.range' (st.footnotes.length + 1) δ.length := by
  intro ws
  induction ws with
  | nil =>
    intro st j
    exact ⟨[], by simp [weave_words], by simp [weave_words, markerNums]⟩
  | cons w ws ih =>
    intro st j
    obtain ⟨δ2, h2a, h2b⟩ := ih (weave_word word_defs vm i lineLen st j w).1 (j + 1)
    rcases h : vm j with _ | v
    · obtain ⟨ha, hb⟩ := weave_word_markers_none word_defs vm i lineLen st j w h
      refine ⟨δ2, ?_, ?_⟩
      · simp only [weave_words]
        rw [h2a, ha]
      · simp only [weave_words, markerNums, List.filterMap_append]
        simp only [markerNums] at hb h2b
        rw [hb, h2b, ha]
        simp
    · obtain ⟨ha, hb⟩ := weave_word_markers_some word_defs vm i lineLen st j w v h
      refine ⟨(v.1 ++ " → " ++ v.2) :: δ2, ?_, ?_⟩
      · simp only [weave_words]
        rw [h2a, ha]
        simp
      · simp only [weave_words, markerNums, List.filterMap_append]
        simp only [markerNums] at hb h2b
        rw [hb, h2b, ha]
        simp only [List.length_append, List.length_cons, List.length_nil]
        rw [show st.footnotes.length + 1 + 1 = (st.footnotes.length + 1) + 1 from rfl]
        rw [show List.range' (st.footnotes.length + 1) (δ2.length + 1)
            = (st.footnotes.length + 1) :: List.range' (st.footnotes.length + 1 + 1) δ2.length
          from List.range'_succ _ _ _]
        rfl

theorem weave_lines_markers (word_defs : List (Loc × String))
    (vms : Nat → Nat → Option (String × String)) :
    ∀ (lines : List (List String)) (i : Nat) (st : WeaveState),
      ∃ δ : List String,
        (weave_lines word_defs vms i st lines).1.footnotes = st.footnotes ++ δ
        ∧ markerNums (weave_lines word_defs vms i st lines).2
            = List.range' (st.footnotes.length + 1) δ.length := by
  intro lines
  induction lines with
  | nil =>
    intro i st
    exact ⟨[], by simp [weave_lines], by simp [weave_lines, markerNums]⟩
  | cons line rest ih =>
    intro i st
    obtain ⟨δ1, h1a, h1b⟩ := weave_words_markers word_defs (vms i) i line.length line st 0
    obtain ⟨δ2, h2a, h2b⟩ := ih (i + 1) (weave_line word_defs (vms i) i st line).1
    have hline1 : (weave_line word_defs (vms i) i st line).1.footnotes
        = st.footnotes ++ δ1 := by
      simp only [weave_line]
      exact h1a
    refine ⟨δ1 ++ δ2, ?_, ?_⟩
    · simp only [weave_lines]
      rw [h2a, hline1, List.append_assoc]
    · simp only [weave_lines, markerNums, List.filterMap_append]
      simp only [markerNums] at h1b h2b
      rw [h2b, hline1]
      simp only [weave_line, List.filterMap_cons, witemMarker]
      rw [h1b]
      simp only [List.length_append]
      rw [show st.footnotes.length + δ1.length + 1
          = (st.footnotes.length + 1) + δ1.length from by omega]
      exact range1_append (st.footnotes.length + 1) δ1.length δ2.length

theorem comment_pass_markers :
    ∀ (cs : List (String × Option String)) (fns : List String),
      ∃ δ : List String,
        (comment_pass fns cs).1 = fns ++ δ
        ∧ markerNums (comment_pass fns cs).2 = List.range' (fns.length + 1) δ.length := by
  intro cs
  induction cs with
  | nil =>
    intro fns
    exact ⟨[], by simp [comment_pass], by simp [comment_pass, markerNums]⟩
  | cons c rest ih =>
    intro fns
    obtain ⟨tr, comment⟩ := c
    rcases comment with _ | cm
    · obtain ⟨δ2, h2a, h2b⟩ := ih fns
      refine ⟨δ2, ?_, ?_⟩
      · simp only [comment_pass]
        exact h2a
      · simp only [comment_pass, markerNums, List.filterMap_append, List.filterMap_cons,
          witemMarker]
        simp only [markerNums] at h2b
        rw [h2b]
        rfl
    · obtain ⟨δ2, h2a, h2b⟩ := ih (fns ++ [cm])
      refine ⟨cm :: δ2, ?_, ?_⟩
      · simp only [comment_pass]
        rw [h2a]
        simp
      · simp only [comment_pass, markerNums, List.filterMap_append, List.filterMap_cons,
          witemMarker]
        simp only [markerNums] at h2b
        rw [h2b]
        simp only [List.length_append, List.length_cons, List.length_nil]
        rw [show List.range' (fns.length + 1) (δ2.length + 1)
            = (fns.length + 1) :: List.range' (fns.length + 1 + 1) δ2.length
          from List.range'_succ _ _ _]
        rfl

/-- C7: within one rendered document the footnote references consume a
single 1-based counter in emission order: the marker numbers emitted by the
root-text weave (whether superscript-inline or standard) followed by those
of the translation/comment loop form exactly the strictly increasing
sequence 1, 2, 3, …, up to the final footnote count. -/
theorem footnote_numbering (word_defs : List (Loc × String))
    (vms : Nat → Nat → Option (String × String)) (root_text : List (List String))
    (cs : List (String × Option String)) :
    markerNums ((weave_doc word_defs vms root_text).2
        ++ (comment_pass (weave_doc word_defs vms root_text).1.footnotes cs).2)
      = List.range' 1
          (comment_pass (weave_doc word_defs vms root_text).1.footnotes cs).1.length := by
  obtain ⟨δ1, h1a, h1b⟩ := weave_lines_markers word_defs vms root_text 0 ⟨0, []⟩
  obtain ⟨δ2, h2a, h2b⟩ :=
    comment_pass_markers cs (weave_doc word_defs vms root_text).1.footnotes
  simp only [weave_doc] at *
  simp only [markerNums, List.filterMap_append] at *
  rw [h1b, h2b, h2a, h1a]
  simp only [List.nil_append, List.length_append, List.length_nil, List.length_cons]
  rw [show δ1.length + 1 = 1 + δ1.length from by omega]
  exact range1_append 1 δ1.length δ2.length

/-- C3: placement of the footnote reference of a token carrying a variant
annotation. Strictly inside the open link span (at or past the span start
and before its end) the reference is the superscript-inline form appended
immediately after the token; outside any link span it is the standard form
appended immediately after the token; and at the final token of a link span
the standard marker is emitted strictly after the link-close-and-destination
marker, never between the token and the link close. -/
theorem weave_variant_marker_placement (word_defs : List (Loc × String))
    (vm : Nat → Option (String × String)) (i lineLen : Nat) (st : WeaveState)
    (j : Nat) (w : String) (v : String × String) (hv : vm j = some v) :
    (∀ d, word_defs.get? st.k = some d → d.1.1 = i → d.1.2.1 ≤ j → j < d.1.2.2 →
      (weave_word word_defs vm i lineLen st j w).2
        = (if d.1.2.1 = j then [WItem.linkOpen] else [])
            ++ [WItem.token w, WItem.fnSuper (st.footnotes.length + 1)]
            ++ (if j < lineLen - 1 then [WItem.space] else []))
    ∧ (∀ d, word_defs.get? st.k = some d → d.1.1 = i → d.1.2.2 = j →
      (weave_word word_defs vm i lineLen st j w).2
        = (if d.1.2.1 = j then [WItem.linkOpen] else [])
            ++ [WItem.token w, WItem.linkClose d.2,
                WItem.fnStandard (st.footnotes.length + 1)]
            ++ (if j < lineLen - 1 then [WItem.space] else []))
    ∧ ((∀ d, word_defs.get? st.k = some d → d.1.1 = i →
          d.1.2.1 ≤ d.1.2.2 ∧ (j < d.1.2.1 ∨ d.1.2.2 < j)) →
      (weave_word word_defs vm i lineLen st j w).2
        = [WItem.token w, WItem.fnStandard (st.footnotes.length + 1)]
            ++ (if j < lineLen - 1 then [WItem.space] else [])) := by
  refine ⟨?_, ?_, ?_⟩
  · intro d hd hline hs he
    simp only [weave_word, get_def, hd, hline, hv, if_pos]
    rw [if_neg (show ¬ (some d.1.2.2 = some j) from by
      simp only [Option.some.injEq]
      omega)]
    rw [decide_eq_true (show d.1.2.1 ≤ j ∧ j < d.1.2.2 from ⟨hs, he⟩)]
    simp [List.length_append]
  · intro d hd hline he
    simp only [weave_word, get_def, hd, hline, hv, if_pos]
    rw [if_pos (show (some d.1.2.2 = some j : Prop) from by rw [he])]
    simp [List.length_append]
  · intro hout
    rcases hgd : word_defs.get? st.k with _ | d
    · simp only [weave_word, get_def, hgd, hv]
      simp
    · by_cases hline : d.1.1 = i
      · obtain ⟨hwf, hor⟩ := hout d hgd hline
        simp only [weave_word, get_def, hgd, hline, hv, if_pos]
        rw [if_neg (show ¬ (some d.1.2.2 = some j) from by
          simp only [Option.some.injEq]
          omega)]
        rw [decide_eq_false (show ¬ (d.1.2.1 ≤ j ∧ j < d.1.2.2) from by omega)]
        rw [if_neg (show ¬ (some d.1.2.1 = some j) from by
          simp only [Option.some.injEq]
          omega)]
        simp [List.length_append]
      · simp only [weave_word, get_def, hgd, hv]
        rw [if_neg hline]
        simp

/-- Witness for C3 at a concrete input: the middle token of the span
(0, 0, 2) carries a variant, lies strictly inside the open link, and
receives the superscript marker numbered 1 immediately after the token. -/
theorem weave_variant_marker_placement_witness :
    (weave_word [((0, 0, 2), "dest")] (fun j => if j = 1 then some ("b", "c") else none)
      0 3 ⟨0, []⟩ 1 "b").2
      = [WItem.token "b", WItem.fnSuper 1, WItem.space] := by
  have h := (weave_variant_marker_placement [((0, 0, 2), "dest")]
    (fun j => if j = 1 then some ("b", "c") else none) 0 3 ⟨0, []⟩ 1 "b" ("b", "c")
    rfl).1 ((0, 0, 2), "dest") rfl rfl (by decide) (by decide)
  simpa using h
